import Mathlib

/-!
# Health Referral Management System — verification of the reconciliation core

Shallow embedding of the repository's reconciliation engine
(`client/src/features/referrals/domain/models.ts` and `reconcile.ts`),
the data-quality summarizer (`dataQuality.ts`), the upload endpoint's
input handling (`server/src/api/uploads.ts`), the auth middleware
(`server/src/services/authz.ts`) and the chunked batch writer
(`server/src/services/firestore.ts`), together with theorems settling
the specification claims about them.

Modelling conventions:
* JavaScript objects used as keyed records (`appointments`, the
  `ReconciledMap`, the dedup `Map`) are modelled as association lists that
  preserve insertion order (JS objects/Maps iterate keys in insertion
  order for the non-numeric string keys used here); `ReconciledMap` itself
  is exposed as a lookup function `String → Option ReferralState`, since
  record equality in the spec is key-order-insensitive.
* `start_time` is an RFC 3339 UTC timestamp string in the source, used
  only through `compareAsc(parseISO a, parseISO b)` (a numeric comparison
  of the parsed millisecond values); the embedding represents a timestamp
  by that parsed integer value and compares with `Int` order.
* JS string truthiness (`if (s)`) is `s` present and non-empty.
* Counters are `Nat`; `seq` is `Int` (a JS number used as an integer).
-/

namespace HRMS

/-- `EventType` from `models.ts`. -/
inductive EventType where
  | STATUS_UPDATE
  | APPOINTMENT_SET
  | APPOINTMENT_CANCELLED
deriving DecidableEq, Repr

/-- `Status` from `models.ts`. -/
inductive Status where
  | CREATED
  | SENT
  | ACKNOWLEDGED
  | SCHEDULED
  | COMPLETED
  | CANCELLED
deriving DecidableEq, Repr

/-- The optional-field `payload` object of `ReferralEvent` (`models.ts`). -/
structure Payload where
  status : Option Status
  appt_id : Option String
  start_time : Option Int
deriving DecidableEq, Repr

/-- `ReferralEvent` from `models.ts`. -/
structure ReferralEvent where
  referral_id : String
  seq : Int
  type : EventType
  payload : Payload
deriving DecidableEq, Repr

/-- `Appointment` from `models.ts`. -/
structure Appointment where
  appt_id : String
  start_time : Int
deriving DecidableEq, Repr

/-- The five counters of `ReferralState.metrics` (`models.ts`). -/
structure Metrics where
  duplicates : Nat
  seqGaps : Nat
  terminalOverrides : Nat
  reschedules : Nat
  cancelledAppts : Nat
deriving DecidableEq, Repr

/-- `ReferralState` from `models.ts`.  `appointments` is the JS record
`appt_id → Appointment | null` as an insertion-ordered association list. -/
structure ReferralState where
  referral_id : String
  status : Status
  active_appointment : Option Appointment
  metrics : Metrics
  events : List ReferralEvent
  appointments : List (String × Option Appointment)
deriving DecidableEq, Repr

/-- `TERMINAL_STATUSES` from `reconcile.ts`. -/
def TERMINAL_STATUSES : List Status := [.COMPLETED, .CANCELLED]

/-- `TERMINAL_STATUSES.includes(s)`. -/
def isTerminalStatus (s : Status) : Bool := TERMINAL_STATUSES.contains s

/-- Lookup in the insertion-ordered association list modelling a JS record:
`none` = key never seen, `some none` = cancelled marker, `some (some a)` =
present appointment. -/
def lookupAppt (l : List (String × Option Appointment)) (k : String) :
    Option (Option Appointment) :=
  (l.find? (fun p => p.1 == k)).map (·.2)

/-- Assignment `appointments[k] = v` on a JS object: overwrite in place if
the key exists (keeping its position), otherwise append. -/
def setAppt (l : List (String × Option Appointment)) (k : String)
    (v : Option Appointment) : List (String × Option Appointment) :=
  match l with
  | [] => [(k, v)]
  | p :: t => if p.1 == k then (k, v) :: t else p :: setAppt t k v

/-- The mutable locals of the replay loop in `reconcile` (`reconcile.ts`
lines 112–127): the `state` fields written during replay plus the
`isTerminal` flag. -/
structure ReplayAcc where
  status : Status
  isTerminal : Bool
  appointments : List (String × Option Appointment)
  terminalOverrides : Nat
  reschedules : Nat
  cancelledAppts : Nat
deriving DecidableEq, Repr

/-- Initial replay state (`reconcile.ts` lines 112–127): status `CREATED`,
no appointments, all counters zero, not terminal. -/
def initAcc : ReplayAcc :=
  { status := .CREATED, isTerminal := false, appointments := []
    terminalOverrides := 0, reschedules := 0, cancelledAppts := 0 }

/-- Status logic of the replay loop (`reconcile.ts` lines 131–153); the
source's `newIsTerminal` constant is inlined. -/
def applyStatus (acc : ReplayAcc) (e : ReferralEvent) : ReplayAcc :=
  match e.type, e.payload.status with
  | .STATUS_UPDATE, some newStatus =>
    if acc.isTerminal then
      if isTerminalStatus newStatus then
        { acc with status := newStatus
                   terminalOverrides := acc.terminalOverrides + 1 }
      else acc
    else
      { acc with status := newStatus, isTerminal := isTerminalStatus newStatus }
  | _, _ => acc

/-- `APPOINTMENT_SET` logic of the replay loop (`reconcile.ts` lines
155–170); the guard is JS truthiness of `appt_id` and `start_time`, which
for the string `appt_id` also excludes the empty string. -/
def applyApptSet (acc : ReplayAcc) (e : ReferralEvent) : ReplayAcc :=
  match e.type, e.payload.appt_id, e.payload.start_time with
  | .APPOINTMENT_SET, some apptId, some startTime =>
    if apptId = "" then acc
    else
      let acc :=
        match lookupAppt acc.appointments apptId with
        | some (some old) =>
          if old.start_time ≠ startTime then
            { acc with reschedules := acc.reschedules + 1 }
          else acc
        | _ => acc
      { acc with
          appointments := setAppt acc.appointments apptId
            (some ⟨apptId, startTime⟩) }
  | _, _, _ => acc

/-- `APPOINTMENT_CANCELLED` logic of the replay loop (`reconcile.ts` lines
172–178). -/
def applyApptCancel (acc : ReplayAcc) (e : ReferralEvent) : ReplayAcc :=
  match e.type, e.payload.appt_id with
  | .APPOINTMENT_CANCELLED, some apptId =>
    if apptId = "" then acc
    else
      match lookupAppt acc.appointments apptId with
      | some (some _) =>
        { acc with appointments := setAppt acc.appointments apptId none
                   cancelledAppts := acc.cancelledAppts + 1 }
      | _ => acc
  | _, _ => acc

/-- One iteration of the replay loop body (`reconcile.ts` lines 130–179):
the three sequential `if` blocks (their type guards are mutually
exclusive). -/
def step (acc : ReplayAcc) (e : ReferralEvent) : ReplayAcc :=
  applyApptCancel (applyApptSet (applyStatus acc e) e) e

/-- The whole replay loop over the sorted retained events. -/
def replay (l : List ReferralEvent) : ReplayAcc := l.foldl step initAcc

/-- One step of the dedup pass (`reconcile.ts` lines 85–94): keep the first
occurrence per `seq` (in encounter order, as a JS `Map` does), count every
later occurrence at an already-present `seq`. -/
def dedupStep (acc : List ReferralEvent × Nat) (e : ReferralEvent) :
    List ReferralEvent × Nat :=
  if acc.1.any (fun x => x.seq == e.seq) then (acc.1, acc.2 + 1)
  else (acc.1 ++ [e], acc.2)

/-- Deduplication by `seq` (`reconcile.ts` lines 84–94): the retained
events in first-encounter order, and the duplicate count. -/
def dedupBySeq (l : List ReferralEvent) : List ReferralEvent × Nat :=
  l.foldl dedupStep ([], 0)

/-- `sort((a, b) => a.seq - b.seq)` (`reconcile.ts` line 96): a stable sort
ascending by `seq`. -/
def sortEvents (l : List ReferralEvent) : List ReferralEvent :=
  l.insertionSort (fun a b => a.seq ≤ b.seq)

/-- The gap-counting loop (`reconcile.ts` lines 98–110). -/
def countGaps : List ReferralEvent → Nat
  | [] => 0
  | [_] => 0
  | a :: b :: t =>
    (if b.seq - a.seq > 1 then (b.seq - a.seq - 1).toNat else 0)
      + countGaps (b :: t)

/-- `bestAppt` selection loop over `Object.values(state.appointments)`
(`reconcile.ts` lines 192–205): keep the current best unless a strictly
earlier `start_time` is seen; cancelled (`null`) entries are skipped. -/
def bestApptFold (vals : List (Option Appointment)) : Option Appointment :=
  vals.foldl
    (fun best v =>
      match v with
      | none => best
      | some a =>
        match best with
        | none => some a
        | some b => if a.start_time < b.start_time then some a else best)
    none

/-- Finalization of `active_appointment` (`reconcile.ts` lines 181–208). -/
def finalizeActive (acc : ReplayAcc) : Option Appointment :=
  if acc.isTerminal then none
  else bestApptFold (acc.appointments.map (·.2))

/-- Assembly of one `ReferralState` from the sorted retained events and the
duplicate count (`reconcile.ts` lines 98–210). -/
def buildState (rid : String) (sorted : List ReferralEvent) (dups : Nat) :
    ReferralState :=
  let acc := replay sorted
  { referral_id := rid
    status := acc.status
    active_appointment := finalizeActive acc
    metrics :=
      { duplicates := dups, seqGaps := countGaps sorted
        terminalOverrides := acc.terminalOverrides
        reschedules := acc.reschedules
        cancelledAppts := acc.cancelledAppts }
    events := sorted
    appointments := acc.appointments }

/-- Processing of one referral's raw event group (`reconcile.ts` lines
82–210). -/
def processReferral (rid : String) (raw : List ReferralEvent) :
    ReferralState :=
  let d := dedupBySeq raw
  buildState rid (sortEvents d.1) d.2

/-- The grouping pass (`reconcile.ts` lines 70–78): the sub-list of events
carrying a given `referral_id`, in input order. -/
def groupFor (events : List ReferralEvent) (rid : String) :
    List ReferralEvent :=
  events.filter (fun e => e.referral_id == rid)

/-- `reconcile` (`reconcile.ts` lines 67–214), exposed as the lookup
function of the returned `ReconciledMap`: a referral id is a key exactly
when some input event carries it. -/
def reconcile (events : List ReferralEvent) : String → Option ReferralState :=
  fun rid =>
    let g := groupFor events rid
    if g.isEmpty then none else some (processReferral rid g)

/-! ## Spec-side auxiliary definitions -/

/-- The spec's gap formula: `Σ max(0, seq[i+1] − seq[i] − 1)` over
consecutive pairs of a key list. -/
def specGaps (ks : List Int) : Nat :=
  ((ks.zip ks.tail).map (fun p => (p.2 - p.1 - 1).toNat)).sum

/-- An event carries the payload fields its `type` reads during replay
(`reconcile.ts` lines 132, 156, 172 read these fields). -/
def wellFormedE (e : ReferralEvent) : Bool :=
  match e.type with
  | .STATUS_UPDATE => e.payload.status.isSome
  | .APPOINTMENT_SET => e.payload.appt_id.isSome && e.payload.start_time.isSome
  | .APPOINTMENT_CANCELLED => e.payload.appt_id.isSome

/-- Strict lexicographic order on character lists, by code point. -/
def lexLtChars : List Char → List Char → Bool
  | [], [] => false
  | [], _ :: _ => true
  | _ :: _, [] => false
  | a :: as, b :: bs => if a < b then true else if b < a then false else lexLtChars as bs

/-- The spec's "ascending (lexicographic) `appt_id`" order on strings. -/
def strLexLt (a b : String) : Bool := lexLtChars a.toList b.toList

/-- Generalized form of the `bestAppt` selection loop: the fold of
`reconcile.ts` lines 194–205 started from an arbitrary current best. -/
def bestGo (best : Option Appointment) (vals : List (Option Appointment)) :
    Option Appointment :=
  vals.foldl
    (fun best v =>
      match v with
      | none => best
      | some a =>
        match best with
        | none => some a
        | some b => if a.start_time < b.start_time then some a else best)
    best

/-- The non-`null`-skipping fold restricted to present appointments. -/
def gmin (b : Appointment) (l : List Appointment) : Appointment :=
  l.foldl (fun b a => if a.start_time < b.start_time then a else b) b

/-! ## Data-quality summarizer (`dataQuality.ts`) -/

/-- `ReferralIssue` from `dataQuality.ts`. -/
structure ReferralIssue where
  id : String
  duplicates : Nat
  seqGaps : Nat
  overrides : Nat
  score : Nat
deriving DecidableEq, Repr

/-- `DataQualitySummary` from `dataQuality.ts`. -/
structure DataQualitySummary where
  totalDuplicates : Nat
  totalSeqGaps : Nat
  totalTerminalOverrides : Nat
  totalReschedules : Nat
  totalCancelledAppts : Nat
  referralsWithIssues : List ReferralIssue
deriving DecidableEq, Repr

/-- The per-referral issue record built by the `.map` step
(`dataQuality.ts` lines 70–76): `score = duplicates + seqGaps +
2·terminalOverrides`. -/
def mkIssue (r : ReferralState) : ReferralIssue :=
  { id := r.referral_id
    duplicates := r.metrics.duplicates
    seqGaps := r.metrics.seqGaps
    overrides := r.metrics.terminalOverrides
    score := r.metrics.duplicates + r.metrics.seqGaps
      + r.metrics.terminalOverrides * 2 }

/-- `sort((a, b) => b.score - a.score)` (`dataQuality.ts` line 78): a
stable sort descending by score. -/
def sortIssues (l : List ReferralIssue) : List ReferralIssue :=
  l.insertionSort (fun a b => b.score ≤ a.score)

/-- `computeDataQualitySummary` (`dataQuality.ts` lines 62–89). -/
def computeDataQualitySummary (referrals : List ReferralState) :
    DataQualitySummary :=
  { totalDuplicates := referrals.foldl (fun s r => s + r.metrics.duplicates) 0
    totalSeqGaps := referrals.foldl (fun s r => s + r.metrics.seqGaps) 0
    totalTerminalOverrides :=
      referrals.foldl (fun s r => s + r.metrics.terminalOverrides) 0
    totalReschedules := referrals.foldl (fun s r => s + r.metrics.reschedules) 0
    totalCancelledAppts :=
      referrals.foldl (fun s r => s + r.metrics.cancelledAppts) 0
    referralsWithIssues :=
      (sortIssues ((referrals.map mkIssue).filter
        (fun r => decide (0 < r.score)))).take 10 }

/-! ## Upload endpoint input handling (`server/src/api/uploads.ts`) -/

/-- A raw event as received by the upload endpoint: `type` is an arbitrary
string because the handler casts the input without validating it
(`uploads.ts` line 53). -/
structure RawUploadEvent where
  referral_id : String
  seq : Int
  type : String
  payload : Payload
deriving DecidableEq, Repr

/-- The three admissible `type` values of the zod `EventSchema`
(`uploads.ts` lines 25–30); the schema is declared but never invoked by
the handler. -/
def validEventTypes : List String :=
  ["STATUS_UPDATE", "APPOINTMENT_SET", "APPOINTMENT_CANCELLED"]

/-- The request-body shapes the handler distinguishes (`uploads.ts` lines
38–50): a bare JSON array, an object with an `events` array, or anything
else. -/
inductive UploadBody where
  | array (events : List RawUploadEvent)
  | wrapped (events : List RawUploadEvent)
  | malformed
deriving DecidableEq, Repr

/-- Outcome of the POST `/uploads` handler body: `invalidInput` is the 400
response of lines 44–50; `ok` carries the `processed` count and the ids of
the event documents enqueued for persistence (lines 93–106, 128–133). -/
inductive UploadResult where
  | invalidInput
  | ok (processed : Nat) (persistedEventIds : List String)
deriving DecidableEq, Repr

/-- Input normalization (`uploads.ts` lines 38–50): the only rejection in
the handler. -/
def uploadNormalize : UploadBody → Option (List RawUploadEvent)
  | .array evs => some evs
  | .wrapped evs => some evs
  | .malformed => none

/-- The validation/persistence behavior of the POST `/uploads` handler
(`uploads.ts` lines 36–139): after normalization every raw event is
enqueued as a document keyed `referral_id_seq` (line 94), with no check of
`type` against `validEventTypes`. -/
def uploadHandler (body : UploadBody) : UploadResult :=
  match uploadNormalize body with
  | none => .invalidInput
  | some evs =>
    .ok evs.length (evs.map (fun e => e.referral_id ++ "_" ++ toString e.seq))

/-! ## Auth middleware (`server/src/services/authz.ts`) -/

/-- The two roles (`authz.ts` line 22). -/
inductive Role where
  | admin
  | viewer
deriving DecidableEq, Repr

/-- The principal returned by token verification (`decodedToken`). -/
structure DecodedToken where
  uid : String
  email : Option String
deriving DecidableEq, Repr

/-- `req.user` as populated by `authenticate` (`authz.ts` lines 47–51). -/
structure AuthedUser where
  uid : String
  email : Option String
  role : Role
deriving DecidableEq, Repr

/-- Whether the pattern list is an initial segment of the other list. -/
def leadMatch : List Char → List Char → Bool
  | [], _ => true
  | _ :: _, [] => false
  | p :: ps, c :: cs => p == c && leadMatch ps cs

/-- `h.startsWith(pre)`, over the character lists. -/
def startsWithB (h pre : String) : Bool := leadMatch pre.toList h.toList

/-- Fuel-indexed scanner for `String.prototype.split(sep)`: cut at every
non-overlapping occurrence of `sep`, scanning left to right. -/
def splitFields (sep : List Char) : Nat → List Char → List Char → List (List Char)
  | _, [], acc => [acc.reverse]
  | 0, l, acc => [acc.reverse ++ l]
  | fuel + 1, c :: cs, acc =>
    if leadMatch sep (c :: cs) then
      acc.reverse :: splitFields sep fuel (List.drop sep.length (c :: cs)) []
    else
      splitFields sep fuel cs (c :: acc)

/-- `h.split(sep)` of JS, over the character lists. -/
def splitOnStr (h sep : String) : List String :=
  (splitFields sep.toList h.toList.length h.toList []).map (fun cs => String.mk cs)

/-- `authHeader.split("Bearer ")[1]` (`authz.ts` line 36). -/
def extractToken (h : String) : String := (splitOnStr h "Bearer ").getD 1 ""

/-- The `authenticate` middleware (`authz.ts` lines 28–60), abstracted over
the token verifier and the Firestore role lookup: `none` is the 401 path
(missing or non-Bearer header, or failed verification); on success the role
defaults to `viewer` when the user document has none (line 50). -/
def authenticate (verify : String → Option DecodedToken)
    (roleStore : String → Option Role) (header : Option String) :
    Option AuthedUser :=
  match header with
  | none => none
  | some h =>
    if startsWithB h "Bearer " then
      match verify (extractToken h) with
      | some d => some ⟨d.uid, d.email, (roleStore d.uid).getD .viewer⟩
      | none => none
    else none

/-- Outcome of a routed request: 401, 403, or the handler's response. -/
inductive RouteOutcome (α : Type) where
  | unauthorized
  | forbidden
  | handled (val : α)
deriving DecidableEq, Repr

/-- A viewer-accessible endpoint behind `authenticate` alone. -/
def runProtected {α : Type} (verify : String → Option DecodedToken)
    (roleStore : String → Option Role) (header : Option String)
    (handler : AuthedUser → α) : RouteOutcome α :=
  match authenticate verify roleStore header with
  | none => .unauthorized
  | some u => .handled (handler u)

/-- The POST `/uploads` chain `authenticate, requireAdmin, handler`
(`uploads.ts` line 36; `requireAdmin` is `authz.ts` lines 62–69: any role
other than `admin` gets 403 and the handler never runs). -/
def runAdminPost {α : Type} (verify : String → Option DecodedToken)
    (roleStore : String → Option Role) (header : Option String)
    (handler : AuthedUser → α) : RouteOutcome α :=
  match authenticate verify roleStore header with
  | none => .unauthorized
  | some u => if u.role = .admin then .handled (handler u) else .forbidden

/-! ## Chunked batch writer (`server/src/services/firestore.ts`) -/

/-- The three operation kinds the writer wraps (`firestore.ts` lines
49–69); refs and data are opaque strings here. -/
inductive FsOp where
  | set (ref : String) (data : String)
  | updateOp (ref : String) (data : String)
  | del (ref : String)
deriving DecidableEq, Repr

/-- `MAX_BATCH_SIZE` (`firestore.ts` line 15). -/
def MAX_BATCH_SIZE : Nat := 400

/-- `ChunkedBatchWriter` state (`firestore.ts` lines 40–47): the current
`WriteBatch` contents, the operation `count`, and—in place of the
in-flight commit promises—the list of already-committed chunks. -/
structure ChunkedBatchWriter where
  batch : List FsOp
  count : Nat
  promises : List (List FsOp)
deriving DecidableEq, Repr

/-- A fresh writer (`firestore.ts` lines 45–47). -/
def ChunkedBatchWriter.new : ChunkedBatchWriter := ⟨[], 0, []⟩

/-- `increment` (`firestore.ts` lines 71–76) inlining `rotate` (lines
78–84): bump the count and, at `MAX_BATCH_SIZE`, commit the current batch
and start a new one. -/
def ChunkedBatchWriter.increment (w : ChunkedBatchWriter) :
    ChunkedBatchWriter :=
  let c := w.count + 1
  if c ≥ MAX_BATCH_SIZE then ⟨[], 0, w.promises ++ [w.batch]⟩
  else ⟨w.batch, c, w.promises⟩

/-- Common body of `set`/`update`/`delete` (`firestore.ts` lines 49–69):
record the operation on the current batch, then `increment`. -/
def ChunkedBatchWriter.enqueue (w : ChunkedBatchWriter) (op : FsOp) :
    ChunkedBatchWriter :=
  ChunkedBatchWriter.increment ⟨w.batch ++ [op], w.count, w.promises⟩

/-- `commit()` (`firestore.ts` lines 86–91): push the non-empty tail batch
and await every chunk; the result is the full list of committed chunks, in
commit order. -/
def ChunkedBatchWriter.commitAll (w : ChunkedBatchWriter) :
    List (List FsOp) :=
  if w.count > 0 then w.promises ++ [w.batch] else w.promises

/-- Enqueue a whole operation sequence on a fresh writer and commit. -/
def writerRun (ops : List FsOp) : List (List FsOp) :=
  (ops.foldl ChunkedBatchWriter.enqueue .new).commitAll

/-! ## Concrete inputs used by counterexamples and witnesses -/

/-- A `STATUS_UPDATE` at `("r", 1)`. -/
def evStatus : ReferralEvent := ⟨"r", 1, .STATUS_UPDATE, ⟨some .SENT, none, none⟩⟩

/-- An `APPOINTMENT_SET` at the same `("r", 1)` with the *same* payload as
`evStatus` but a different `type`. -/
def evAppt : ReferralEvent := ⟨"r", 1, .APPOINTMENT_SET, ⟨some .SENT, none, none⟩⟩

/-- Appointment "B" set first, at the same `start_time` as "A". -/
def evSetB : ReferralEvent := ⟨"r", 1, .APPOINTMENT_SET, ⟨none, some "B", some 100⟩⟩

/-- Appointment "A" set second, with `start_time` equal to "B"'s. -/
def evSetA : ReferralEvent := ⟨"r", 2, .APPOINTMENT_SET, ⟨none, some "A", some 100⟩⟩

/-- A malformed `STATUS_UPDATE`: no `payload.status`. -/
def evNoStatus : ReferralEvent := ⟨"r", 5, .STATUS_UPDATE, ⟨none, none, none⟩⟩

/-- A referral state with one duplicate and nothing else, under id "B". -/
def stIssueB : ReferralState :=
  { referral_id := "B", status := .CREATED, active_appointment := none
    metrics := ⟨1, 0, 0, 0, 0⟩, events := [], appointments := [] }

/-- A referral state with one duplicate and nothing else, under id "A". -/
def stIssueA : ReferralState :=
  { referral_id := "A", status := .CREATED, active_appointment := none
    metrics := ⟨1, 0, 0, 0, 0⟩, events := [], appointments := [] }

/-- An upload event whose `type` is none of the three valid values. -/
def evUnknownType : RawUploadEvent := ⟨"r", 1, "SOMETHING_ELSE", ⟨none, none, none⟩⟩

/-- Status updates at seqs 1, 3 and 7: two interior gaps totalling 4. -/
def gapEvents : List ReferralEvent :=
  [⟨"r", 1, .STATUS_UPDATE, ⟨some .SENT, none, none⟩⟩,
   ⟨"r", 3, .STATUS_UPDATE, ⟨some .ACKNOWLEDGED, none, none⟩⟩,
   ⟨"r", 7, .STATUS_UPDATE, ⟨some .SCHEDULED, none, none⟩⟩]

/-! ## Helper lemmas about deduplication -/

theorem dedup_foldl_mem (l : List ReferralEvent)
    (acc : List ReferralEvent × Nat) (x : ReferralEvent)
    (hx : x ∈ (l.foldl dedupStep acc).1) : x ∈ acc.1 ∨ x ∈ l := by
  induction l generalizing acc with
  | nil => exact Or.inl hx
  | cons e t ih =>
    simp only [List.foldl_cons] at hx
    rcases ih (dedupStep acc e) hx with h | h
    · unfold dedupStep at h
      split at h
      · exact Or.inl h
      · simp only [List.mem_append, List.mem_singleton] at h
        rcases h with h | h
        · exact Or.inl h
        · exact Or.inr (h ▸ List.mem_cons_self e t)
    · exact Or.inr (List.mem_cons_of_mem e h)

theorem dedup_foldl_seq_iff (l : List ReferralEvent)
    (acc : List ReferralEvent × Nat) (s : Int) :
    (∃ x ∈ (l.foldl dedupStep acc).1, x.seq = s) ↔
      (∃ x ∈ acc.1, x.seq = s) ∨ ∃ e ∈ l, e.seq = s := by
  induction l generalizing acc with
  | nil => simp
  | cons e t ih =>
    simp only [List.foldl_cons]
    rw [ih]
    unfold dedupStep
    split
    · rename_i hany
      simp only [List.any_eq_true, beq_iff_eq] at hany
      obtain ⟨y, hy, hys⟩ := hany
      constructor
      · rintro (h | ⟨z, hz, hzs⟩)
        · exact Or.inl h
        · exact Or.inr ⟨z, List.mem_cons_of_mem e hz, hzs⟩
      · rintro (h | ⟨z, hz, hzs⟩)
        · exact Or.inl h
        · rcases List.mem_cons.mp hz with rfl | hzt
          · exact Or.inl ⟨y, hy, hzs ▸ hys⟩
          · exact Or.inr ⟨z, hzt, hzs⟩
    · simp only [List.mem_append, List.mem_singleton]
      constructor
      · rintro (⟨x, hx | rfl, hxs⟩ | ⟨z, hz, hzs⟩)
        · exact Or.inl ⟨x, hx, hxs⟩
        · exact Or.inr ⟨x, List.mem_cons_self _ _, hxs⟩
        · exact Or.inr ⟨z, List.mem_cons_of_mem e hz, hzs⟩
      · rintro (⟨x, hx, hxs⟩ | ⟨z, hz, hzs⟩)
        · exact Or.inl ⟨x, Or.inl hx, hxs⟩
        · rcases List.mem_cons.mp hz with rfl | hzt
          · exact Or.inl ⟨z, Or.inr rfl, hzs⟩
          · exact Or.inr ⟨z, hzt, hzs⟩

theorem dedup_foldl_nodupkeys (l : List ReferralEvent)
    (acc : List ReferralEvent × Nat)
    (hacc : (acc.1.map (·.seq)).Nodup) :
    ((l.foldl dedupStep acc).1.map (·.seq)).Nodup := by
  induction l generalizing acc with
  | nil => exact hacc
  | cons e t ih =>
    simp only [List.foldl_cons]
    refine ih (dedupStep acc e) ?_
    unfold dedupStep
    split
    · exact hacc
    · rename_i hany
      simp only [List.any_eq_true, beq_iff_eq, not_exists] at hany
      simp only [List.map_append, List.map_cons, List.map_nil]
      rw [List.nodup_append]
      refine ⟨hacc, List.nodup_singleton _, ?_⟩
      intro a ha hb
      simp only [List.mem_singleton] at hb
      subst hb
      simp only [List.mem_map] at ha
      obtain ⟨x, hx, hxe⟩ := ha
      exact hany x ⟨hx, hxe⟩

theorem dedup_foldl_len (l : List ReferralEvent)
    (acc : List ReferralEvent × Nat) :
    (l.foldl dedupStep acc).1.length + (l.foldl dedupStep acc).2 =
      acc.1.length + acc.2 + l.length := by
  induction l generalizing acc with
  | nil => simp
  | cons e t ih =>
    simp only [List.foldl_cons]
    rw [ih]
    unfold dedupStep
    split <;> simp <;> omega

theorem dedup_foldl_absorb (l : List ReferralEvent)
    (acc : List ReferralEvent × Nat)
    (h : ∀ e ∈ l, ∃ x ∈ acc.1, x.seq = e.seq) :
    l.foldl dedupStep acc = (acc.1, acc.2 + l.length) := by
  induction l generalizing acc with
  | nil => simp
  | cons e t ih =>
    simp only [List.foldl_cons]
    have he : dedupStep acc e = (acc.1, acc.2 + 1) := by
      unfold dedupStep
      obtain ⟨x, hx, hxs⟩ := h e (List.mem_cons_self e t)
      have : acc.1.any (fun x => x.seq == e.seq) = true := by
        simp only [List.any_eq_true, beq_iff_eq]
        exact ⟨x, hx, hxs⟩
      rw [if_pos this]
    rw [he, ih]
    · simp only [List.length_cons]
      congr 1
      omega
    · intro x hx
      exact h x (List.mem_cons_of_mem e hx)

/-! ## Helper lemmas about sorting -/

instance : IsTotal ReferralEvent (fun a b => a.seq ≤ b.seq) :=
  ⟨fun a b => Int.le_total a.seq b.seq⟩

instance : IsTrans ReferralEvent (fun a b => a.seq ≤ b.seq) :=
  ⟨fun _ _ _ hab hbc => le_trans hab hbc⟩

theorem sortEvents_perm (l : List ReferralEvent) : (sortEvents l).Perm l :=
  List.perm_insertionSort _ l

theorem sortEvents_sorted (l : List ReferralEvent) :
    (sortEvents l).Sorted (fun a b => a.seq ≤ b.seq) :=
  List.sorted_insertionSort _ l

theorem eq_of_map_seq_eq (l₁ l₂ : List ReferralEvent)
    (hmap : l₁.map (·.seq) = l₂.map (·.seq))
    (hinj : ∀ a ∈ l₁, ∀ b ∈ l₂, a.seq = b.seq → a = b) : l₁ = l₂ := by
  induction l₁ generalizing l₂ with
  | nil =>
    cases l₂ with
    | nil => rfl
    | cons b t => simp at hmap
  | cons a t ih =>
    cases l₂ with
    | nil => simp at hmap
    | cons b t₂ =>
      simp only [List.map_cons, List.cons.injEq] at hmap
      have hab : a = b :=
        hinj a (List.mem_cons_self _ _) b (List.mem_cons_self _ _) hmap.1
      subst hab
      have ht : t = t₂ := by
        refine ih t₂ hmap.2 ?_
        intro x hx y hy hxy
        exact hinj x (List.mem_cons_of_mem _ hx) y (List.mem_cons_of_mem _ hy) hxy
      rw [ht]

theorem sorted_keys_eq (k₁ k₂ : List Int)
    (hs₁ : k₁.Sorted (· ≤ ·)) (hs₂ : k₂.Sorted (· ≤ ·))
    (hn₁ : k₁.Nodup) (hn₂ : k₂.Nodup)
    (hm : ∀ x, x ∈ k₁ ↔ x ∈ k₂) : k₁ = k₂ := by
  have hperm : k₁.Perm k₂ := (List.perm_ext_iff_of_nodup hn₁ hn₂).mpr hm
  exact List.eq_of_perm_of_sorted hperm hs₁ hs₂

/-- The sorted retained events and the duplicate count are both invariant
under permutation of the raw per-referral group, provided equal `seq`
within the group pins down the whole event. -/
theorem dedup_sort_perm_invariant (g₁ g₂ : List ReferralEvent)
    (hperm : g₁.Perm g₂)
    (huniq : ∀ a ∈ g₁, ∀ b ∈ g₁, a.seq = b.seq → a = b) :
    sortEvents (dedupBySeq g₁).1 = sortEvents (dedupBySeq g₂).1 ∧
      (dedupBySeq g₁).2 = (dedupBySeq g₂).2 := by
  have hmem₁ : ∀ x ∈ (dedupBySeq g₁).1, x ∈ g₁ := fun x hx => by
    rcases dedup_foldl_mem g₁ ([], 0) x hx with h | h
    · simp at h
    · exact h
  have hmem₂ : ∀ x ∈ (dedupBySeq g₂).1, x ∈ g₂ := fun x hx => by
    rcases dedup_foldl_mem g₂ ([], 0) x hx with h | h
    · simp at h
    · exact h
  have hseq₁ : ∀ s, (∃ x ∈ (dedupBySeq g₁).1, x.seq = s) ↔ ∃ e ∈ g₁, e.seq = s := by
    intro s
    rw [show (dedupBySeq g₁) = g₁.foldl dedupStep ([], 0) from rfl,
      dedup_foldl_seq_iff]
    simp
  have hseq₂ : ∀ s, (∃ x ∈ (dedupBySeq g₂).1, x.seq = s) ↔ ∃ e ∈ g₂, e.seq = s := by
    intro s
    rw [show (dedupBySeq g₂) = g₂.foldl dedupStep ([], 0) from rfl,
      dedup_foldl_seq_iff]
    simp
  have hnk₁ : ((dedupBySeq g₁).1.map (·.seq)).Nodup :=
    dedup_foldl_nodupkeys g₁ ([], 0) (by simp)
  have hnk₂ : ((dedupBySeq g₂).1.map (·.seq)).Nodup :=
    dedup_foldl_nodupkeys g₂ ([], 0) (by simp)
  set s₁ := sortEvents (dedupBySeq g₁).1 with hs₁def
  set s₂ := sortEvents (dedupBySeq g₂).1 with hs₂def
  have hp₁ : s₁.Perm (dedupBySeq g₁).1 := sortEvents_perm _
  have hp₂ : s₂.Perm (dedupBySeq g₂).1 := sortEvents_perm _
  have hkeys : s₁.map (·.seq) = s₂.map (·.seq) := by
    refine sorted_keys_eq _ _ ?_ ?_ ?_ ?_ ?_
    · exact List.pairwise_map.mpr (sortEvents_sorted _)
    · exact List.pairwise_map.mpr (sortEvents_sorted _)
    · exact (hp₁.map (·.seq)).nodup_iff.mpr hnk₁
    · exact (hp₂.map (·.seq)).nodup_iff.mpr hnk₂
    · intro x
      simp only [List.mem_map]
      constructor
      · rintro ⟨a, ha, rfl⟩
        have : ∃ e ∈ g₂, e.seq = a.seq := by
          rw [← hseq₂]
          have : ∃ e ∈ g₁, e.seq = a.seq :=
            ⟨a, hmem₁ a (hp₁.subset ha), rfl⟩
          rw [hseq₂]
          exact this.imp fun e he => ⟨hperm.subset he.1, he.2⟩
        obtain ⟨e, he, hes⟩ := (hseq₂ a.seq).mpr this
        exact ⟨e, hp₂.mem_iff.mpr he, hes⟩
      · rintro ⟨a, ha, rfl⟩
        have : ∃ e ∈ g₁, e.seq = a.seq :=
          ⟨a, hperm.symm.subset (hmem₂ a (hp₂.subset ha)), rfl⟩
        obtain ⟨e, he, hes⟩ := (hseq₁ a.seq).mpr this
        exact ⟨e, hp₁.mem_iff.mpr he, hes⟩
  have hlist : s₁ = s₂ := by
    refine eq_of_map_seq_eq s₁ s₂ hkeys ?_
    intro a ha b hb hab
    exact huniq a (hmem₁ a (hp₁.subset ha)) b
      (hperm.symm.subset (hmem₂ b (hp₂.subset hb))) hab
  refine ⟨hlist, ?_⟩
  have hlen₁ := dedup_foldl_len g₁ ([], 0)
  have hlen₂ := dedup_foldl_len g₂ ([], 0)
  simp only [List.length_nil] at hlen₁ hlen₂
  have hglen : g₁.length = g₂.length := hperm.length_eq
  have hdlen : (dedupBySeq g₁).1.length = (dedupBySeq g₂).1.length := by
    rw [← hp₁.length_eq, ← hp₂.length_eq, hlist]
  have e₁ : (dedupBySeq g₁) = g₁.foldl dedupStep ([], 0) := rfl
  have e₂ : (dedupBySeq g₂) = g₂.foldl dedupStep ([], 0) := rfl
  rw [← e₁] at hlen₁
  rw [← e₂] at hlen₂
  omega

/-! ## The chunked batch writer (claim C9) -/

theorem writer_fold_invariant (ops : List FsOp) :
    ∀ w : ChunkedBatchWriter,
      w.count = w.batch.length →
      w.batch.length < MAX_BATCH_SIZE →
      (∀ c ∈ w.promises, c.length ≤ MAX_BATCH_SIZE) →
      (ops.foldl ChunkedBatchWriter.enqueue w).count
          = (ops.foldl ChunkedBatchWriter.enqueue w).batch.length ∧
        (ops.foldl ChunkedBatchWriter.enqueue w).batch.length < MAX_BATCH_SIZE ∧
        (∀ c ∈ (ops.foldl ChunkedBatchWriter.enqueue w).promises,
          c.length ≤ MAX_BATCH_SIZE) ∧
        (ops.foldl ChunkedBatchWriter.enqueue w).promises.flatten
            ++ (ops.foldl ChunkedBatchWriter.enqueue w).batch
          = w.promises.flatten ++ w.batch ++ ops := by
  induction ops with
  | nil =>
    intro w h1 h2 h3
    exact ⟨h1, h2, h3, by simp⟩
  | cons op t ih =>
    intro w h1 h2 h3
    simp only [List.foldl_cons]
    by_cases hc : w.count + 1 ≥ MAX_BATCH_SIZE
    · have henq : ChunkedBatchWriter.enqueue w op
          = ⟨[], 0, w.promises ++ [w.batch ++ [op]]⟩ := by
        unfold ChunkedBatchWriter.enqueue ChunkedBatchWriter.increment
        exact if_pos hc
      rw [henq]
      obtain ⟨i1, i2, i3, i4⟩ :=
        ih ⟨[], 0, w.promises ++ [w.batch ++ [op]]⟩ rfl
          (by simp [MAX_BATCH_SIZE])
          (by
            intro c hcmem
            rcases List.mem_append.mp hcmem with hmem | hmem
            · exact h3 c hmem
            · simp only [List.mem_singleton] at hmem
              subst hmem
              simp only [List.length_append, List.length_cons, List.length_nil]
              omega)
      refine ⟨i1, i2, i3, ?_⟩
      rw [i4]
      simp
    · have henq : ChunkedBatchWriter.enqueue w op
          = ⟨w.batch ++ [op], w.count + 1, w.promises⟩ := by
        unfold ChunkedBatchWriter.enqueue ChunkedBatchWriter.increment
        exact if_neg hc
      rw [henq]
      obtain ⟨i1, i2, i3, i4⟩ :=
        ih ⟨w.batch ++ [op], w.count + 1, w.promises⟩
          (by simp [h1])
          (by simp only [List.length_append, List.length_cons, List.length_nil]; omega)
          h3
      refine ⟨i1, i2, i3, ?_⟩
      rw [i4]
      simp

/-- C9 (confirmed): after enqueueing any sequence of set/update/delete
operations on a fresh `ChunkedBatchWriter` and calling `commit()`, the
committed chunks contain, in order, exactly the enqueued operations (each
committed exactly once), every committed chunk holds at most
`MAX_BATCH_SIZE = 400` operations, and the value `commit()` resolves with
accounts for every chunk, the auto-rotated ones included. -/
theorem chunkedBatchWriter_commits_all_chunks (ops : List FsOp) :
    (writerRun ops).flatten = ops ∧
      ∀ c ∈ writerRun ops, c.length ≤ MAX_BATCH_SIZE := by
  obtain ⟨h1, h2, h3, h4⟩ :=
    writer_fold_invariant ops ChunkedBatchWriter.new rfl
      (by simp [ChunkedBatchWriter.new, MAX_BATCH_SIZE])
      (by intro c hc; simp [ChunkedBatchWriter.new] at hc)
  have h4' : (ops.foldl ChunkedBatchWriter.enqueue ChunkedBatchWriter.new).promises.flatten
      ++ (ops.foldl ChunkedBatchWriter.enqueue ChunkedBatchWriter.new).batch = ops := by
    simpa [ChunkedBatchWriter.new] using h4
  unfold writerRun ChunkedBatchWriter.commitAll
  split
  · constructor
    · simpa using h4'
    · intro c hc
      rcases List.mem_append.mp hc with hmem | hmem
      · exact h3 c hmem
      · simp only [List.mem_singleton] at hmem
        subst hmem
        exact le_of_lt h2
  · rename_i hcount
    have hb : (ops.foldl ChunkedBatchWriter.enqueue ChunkedBatchWriter.new).batch = [] := by
      have : (ops.foldl ChunkedBatchWriter.enqueue ChunkedBatchWriter.new).count = 0 := by
        omega
      rw [this] at h1
      exact (List.length_eq_zero.mp h1.symm)
    constructor
    · rw [hb, List.append_nil] at h4'
      exact h4'
    · intro c hc
      exact h3 c hc

/-- Witness for C9: a concrete run with two operations commits one chunk
holding exactly those operations. -/
theorem chunkedBatchWriter_commits_all_chunks_witness :
    (writerRun [FsOp.set "r" "d", FsOp.del "r"]).flatten
        = [FsOp.set "r" "d", FsOp.del "r"] ∧
      ([FsOp.set "r" "d", FsOp.del "r"] : List FsOp).length ≤ MAX_BATCH_SIZE :=
  ⟨(chunkedBatchWriter_commits_all_chunks [FsOp.set "r" "d", FsOp.del "r"]).1,
   (chunkedBatchWriter_commits_all_chunks [FsOp.set "r" "d", FsOp.del "r"]).2
     [FsOp.set "r" "d", FsOp.del "r"] (by decide)⟩

/-! ## The auth gate (claim C8) -/

/-- C8 (confirmed): on any protected endpoint an absent `Authorization`
header, a header not starting with `Bearer `, or a bearer token the
verifier rejects yields 401 without running the handler; on the admin-only
POST `/uploads` chain an authenticated principal whose resolved role is
not `admin` yields 403 without running the handler; and a verified
principal with no stored role resolves to role `viewer`. -/
theorem authz_gate {α : Type} (verify : String → Option DecodedToken)
    (roleStore : String → Option Role) (header : Option String)
    (handler : AuthedUser → α) :
    (header = none →
        runProtected verify roleStore header handler = .unauthorized ∧
        runAdminPost verify roleStore header handler = .unauthorized) ∧
    (∀ h, header = some h → startsWithB h "Bearer " = false →
        runProtected verify roleStore header handler = .unauthorized ∧
        runAdminPost verify roleStore header handler = .unauthorized) ∧
    (∀ h, header = some h → startsWithB h "Bearer " = true →
        verify (extractToken h) = none →
        runProtected verify roleStore header handler = .unauthorized ∧
        runAdminPost verify roleStore header handler = .unauthorized) ∧
    (∀ u, authenticate verify roleStore header = some u → u.role ≠ .admin →
        runAdminPost verify roleStore header handler = .forbidden) ∧
    (∀ h d, header = some h → startsWithB h "Bearer " = true →
        verify (extractToken h) = some d → roleStore d.uid = none →
        authenticate verify roleStore header = some ⟨d.uid, d.email, .viewer⟩) := by
  refine ⟨?_, ?_, ?_, ?_, ?_⟩
  · rintro rfl
    constructor <;> rfl
  · rintro h rfl hsw
    constructor <;> simp [runProtected, runAdminPost, authenticate, hsw]
  · rintro h rfl hsw hv
    constructor <;> simp [runProtected, runAdminPost, authenticate, hsw, hv]
  · intro u hu hrole
    simp [runAdminPost, hu, hrole]
  · rintro h d rfl hsw hv hrole
    simp [authenticate, hsw, hv, hrole]

/-- Witness for C8 at concrete capabilities: a viewer-role principal (no
stored role, hence default `viewer`) is authenticated but receives 403
from the admin chain, and a bogus token receives 401. -/
theorem authz_gate_witness :
    runAdminPost (fun t => if t = "tok" then some ⟨"u1", none⟩ else none)
        (fun _ => none) (some "Bearer tok") (fun _ => (0 : Nat))
      = .forbidden ∧
    authenticate (fun t => if t = "tok" then some ⟨"u1", none⟩ else none)
        (fun _ => none) (some "Bearer tok")
      = some ⟨"u1", none, .viewer⟩ ∧
    runProtected (fun t => if t = "tok" then some ⟨"u1", none⟩ else none)
        (fun _ => none) (some "Bearer bad") (fun _ => (0 : Nat))
      = .unauthorized := by
  have hgate := authz_gate (α := Nat)
    (fun t => if t = "tok" then some ⟨"u1", none⟩ else none)
    (fun _ => none) (some "Bearer tok") (fun _ => (0 : Nat))
  have hauth : authenticate (fun t => if t = "tok" then some ⟨"u1", none⟩ else none)
      (fun _ => none) (some "Bearer tok") = some ⟨"u1", none, .viewer⟩ :=
    hgate.2.2.2.2 "Bearer tok" ⟨"u1", none⟩ rfl (by decide) (by decide) rfl
  refine ⟨hgate.2.2.2.1 ⟨"u1", none, .viewer⟩ hauth (by decide), hauth, ?_⟩
  exact (authz_gate (α := Nat)
    (fun t => if t = "tok" then some ⟨"u1", none⟩ else none)
    (fun _ => none) (some "Bearer bad") (fun _ => (0 : Nat))).2.2.1
    "Bearer bad" rfl (by decide) (by decide) |>.1

/-! ## Upload validation (claim C6) -/

/-- C6 (code bug): the POST `/uploads` handler accepts and persists a
batch containing an event whose `type` is outside the `EventSchema` enum:
the declared zod schema is never invoked, so the only 400 path is a body
that is neither an array nor `{events: [...]}`. At the failing input — a
bare-array batch holding one event of type `"SOMETHING_ELSE"` — the
handler answers success and enqueues the unknown-type event's document,
where the claim requires `InvalidInput` (400) and nothing persisted. -/
theorem uploads_unknown_type_accepted :
    validEventTypes.contains evUnknownType.type = false ∧
    uploadHandler (.array [evUnknownType]) = .ok 1 ["r_1"] ∧
    uploadHandler (.wrapped [evUnknownType]) = .ok 1 ["r_1"] ∧
    uploadHandler (.array [evUnknownType]) ≠ .invalidInput := by
  refine ⟨by decide, by decide, by decide, by decide⟩

/-! ## Gap accounting (claim C4) -/

theorem reconcile_some (E : List ReferralEvent) (rid : String)
    (st : ReferralState) (h : reconcile E rid = some st) :
    st = processReferral rid (groupFor E rid) := by
  simp only [reconcile] at h
  split at h
  · cases h
  · exact (Option.some_inj.mp h).symm

theorem countGaps_eq_specGaps (l : List ReferralEvent) :
    countGaps l = specGaps (l.map (·.seq)) := by
  induction l with
  | nil => rfl
  | cons a t ih =>
    cases t with
    | nil => rfl
    | cons b ts =>
      unfold countGaps
      rw [ih]
      unfold specGaps
      simp only [List.map_cons, List.tail_cons, List.zip_cons_cons,
        List.map_cons, List.sum_cons]
      have : (if b.seq - a.seq > 1 then (b.seq - a.seq - 1).toNat else 0)
          = (b.seq - a.seq - 1).toNat := by
        split
        · rfl
        · omega
      omega

theorem sorted_nodupkeys_strict (l : List ReferralEvent)
    (hs : l.Sorted (fun a b => a.seq ≤ b.seq))
    (hn : (l.map (·.seq)).Nodup) :
    l.Pairwise (fun a b => a.seq < b.seq) := by
  have hne : l.Pairwise (fun a b => a.seq ≠ b.seq) := List.pairwise_map.mp hn
  exact (hs.and hne).imp (fun h => lt_of_le_of_ne h.1 h.2)

theorem specGaps_closed (t : List Int) :
    ∀ a : Int, (a :: t).Pairwise (· < ·) →
      (specGaps (a :: t) : Int) = (a :: t).getLast (by simp) - a - t.length := by
  induction t with
  | nil =>
    intro a _
    simp [specGaps]
  | cons b ts ih =>
    intro a h
    have hab : a < b := List.rel_of_pairwise_cons h (List.mem_cons_self _ _)
    have htail : (b :: ts).Pairwise (· < ·) := h.of_cons
    have hrec := ih b htail
    have hsplit : specGaps (a :: b :: ts) = (b - a - 1).toNat + specGaps (b :: ts) := by
      unfold specGaps
      simp [List.zip_cons_cons]
    have hlast : (a :: b :: ts).getLast (by simp) = (b :: ts).getLast (by simp) := by
      simp [List.getLast_cons]
    rw [hsplit, hlast]
    push_cast
    rw [hrec]
    have : ((b - a - 1).toNat : Int) = b - a - 1 := by omega
    rw [this]
    simp only [List.length_cons]
    push_cast
    ring

/-- C4 (confirmed): for every referral state produced by `reconcile`,
`metrics.seqGaps` equals the spec's sum `Σ max(0, seq[i+1] − seq[i] − 1)`
over consecutive retained events (so gaps outside the retained range
contribute nothing), and whenever the retained `seq` list is the
(necessarily strictly increasing) nonempty list `a :: t`, `seqGaps` equals
`last − first − (len − 1)`. -/
theorem seqGaps_spec (E : List ReferralEvent) (rid : String)
    (st : ReferralState) (h : reconcile E rid = some st) :
    st.metrics.seqGaps = specGaps (st.events.map (·.seq)) ∧
      (st.events.map (·.seq)).Pairwise (· < ·) ∧
      ∀ (a : Int) (t : List Int), st.events.map (·.seq) = a :: t →
        (st.metrics.seqGaps : Int) = (a :: t).getLast (by simp) - a - t.length := by
  have hst := reconcile_some E rid st h
  subst hst
  have hgaps : (processReferral rid (groupFor E rid)).metrics.seqGaps
      = countGaps (processReferral rid (groupFor E rid)).events := rfl
  have hev : (processReferral rid (groupFor E rid)).events
      = sortEvents (dedupBySeq (groupFor E rid)).1 := rfl
  have hnodup : ((sortEvents (dedupBySeq (groupFor E rid)).1).map (·.seq)).Nodup := by
    have hd : ((dedupBySeq (groupFor E rid)).1.map (·.seq)).Nodup :=
      dedup_foldl_nodupkeys (groupFor E rid) ([], 0) (by simp)
    exact ((sortEvents_perm _).map (·.seq)).nodup_iff.mpr hd
  have hstrict : ((sortEvents (dedupBySeq (groupFor E rid)).1).map (·.seq)).Pairwise (· < ·) := by
    have := sorted_nodupkeys_strict _ (sortEvents_sorted (dedupBySeq (groupFor E rid)).1) hnodup
    exact List.pairwise_map.mpr this
  refine ⟨by rw [hgaps, countGaps_eq_specGaps], by rw [hev]; exact hstrict, ?_⟩
  intro a t hat
  rw [hgaps, countGaps_eq_specGaps, hat]
  refine specGaps_closed t a ?_
  rw [← hev] at hstrict
  rw [hat] at hstrict
  exact hstrict

/-- Witness for C4 at retained seqs `[1, 3, 7]`: `seqGaps = 4` equals both
the pairwise sum and `7 − 1 − 2`. -/
theorem seqGaps_spec_witness :
    (processReferral "r" (groupFor gapEvents "r")).metrics.seqGaps
        = specGaps ((processReferral "r" (groupFor gapEvents "r")).events.map (·.seq)) ∧
    ((processReferral "r" (groupFor gapEvents "r")).metrics.seqGaps : Int)
        = ([(1 : Int), 3, 7]).getLast (by simp) - 1 - [(3 : Int), 7].length :=
  ⟨(seqGaps_spec gapEvents "r" _ rfl).1,
   (seqGaps_spec gapEvents "r" _ rfl).2.2 1 [3, 7] (by decide)⟩

/-! ## Replay-step lemmas -/

theorem applyApptSet_keeps_status (acc : ReplayAcc) (e : ReferralEvent) :
    (applyApptSet acc e).status = acc.status ∧
      (applyApptSet acc e).isTerminal = acc.isTerminal ∧
      (applyApptSet acc e).terminalOverrides = acc.terminalOverrides := by
  unfold applyApptSet
  split
  · split
    · exact ⟨rfl, rfl, rfl⟩
    · split <;> try split
      all_goals exact ⟨rfl, rfl, rfl⟩
  · exact ⟨rfl, rfl, rfl⟩

theorem applyApptCancel_keeps_status (acc : ReplayAcc) (e : ReferralEvent) :
    (applyApptCancel acc e).status = acc.status ∧
      (applyApptCancel acc e).isTerminal = acc.isTerminal ∧
      (applyApptCancel acc e).terminalOverrides = acc.terminalOverrides := by
  unfold applyApptCancel
  split
  · split
    · exact ⟨rfl, rfl, rfl⟩
    · split
      · exact ⟨rfl, rfl, rfl⟩
      · exact ⟨rfl, rfl, rfl⟩
  · exact ⟨rfl, rfl, rfl⟩

theorem applyStatus_nonstatus (acc : ReplayAcc) (e : ReferralEvent)
    (h : e.type ≠ .STATUS_UPDATE ∨ e.payload.status = none) :
    applyStatus acc e = acc := by
  unfold applyStatus
  split
  · rename_i hty hs
    rcases h with h | h
    · exact absurd hty h
    · rw [h] at hs
      cases hs
  · rfl

theorem apptSteps_on_status (acc : ReplayAcc) (e : ReferralEvent)
    (hty : e.type = .STATUS_UPDATE) :
    applyApptCancel (applyApptSet acc e) e = acc := by
  have h1 : applyApptSet acc e = acc := by
    unfold applyApptSet
    split
    · rename_i hty2 _ _
      rw [hty] at hty2
      cases hty2
    · rfl
  rw [h1]
  unfold applyApptCancel
  split
  · rename_i hty2 _
    rw [hty] at hty2
    cases hty2
  · rfl

theorem step_keeps_terminal (acc : ReplayAcc) (e : ReferralEvent)
    (h : acc.isTerminal = true) : (step acc e).isTerminal = true := by
  have hstat : (applyStatus acc e).isTerminal = true := by
    unfold applyStatus
    split
    · rw [if_pos h]
      split
      · exact h
      · exact h
    · exact h
  unfold step
  rw [(applyApptCancel_keeps_status _ _).2.1, (applyApptSet_keeps_status _ _).2.1]
  exact hstat

theorem step_flag_status (acc : ReplayAcc) (e : ReferralEvent)
    (h : acc.isTerminal = isTerminalStatus acc.status) :
    (step acc e).isTerminal = isTerminalStatus (step acc e).status := by
  unfold step
  rw [(applyApptCancel_keeps_status _ _).2.1, (applyApptSet_keeps_status _ _).2.1,
    (applyApptCancel_keeps_status _ _).1, (applyApptSet_keeps_status _ _).1]
  unfold applyStatus
  split
  · rename_i s hty hs
    by_cases hterm : acc.isTerminal = true
    · rw [if_pos hterm]
      by_cases hst : isTerminalStatus s = true
      · rw [if_pos hst]
        show acc.isTerminal = isTerminalStatus s
        rw [hterm, hst]
      · rw [if_neg hst]
        exact h
    · rw [if_neg hterm]
  · exact h

theorem foldl_keeps_terminal (l : List ReferralEvent) :
    ∀ acc : ReplayAcc, acc.isTerminal = true →
      (l.foldl step acc).isTerminal = true := by
  induction l with
  | nil => intro acc h; exact h
  | cons e t ih =>
    intro acc h
    exact ih (step acc e) (step_keeps_terminal acc e h)

theorem foldl_flag_status (l : List ReferralEvent) :
    ∀ acc : ReplayAcc, acc.isTerminal = isTerminalStatus acc.status →
      (l.foldl step acc).isTerminal
        = isTerminalStatus (l.foldl step acc).status := by
  induction l with
  | nil => intro acc h; exact h
  | cons e t ih =>
    intro acc h
    exact ih (step acc e) (step_flag_status acc e h)

theorem replay_flag_status (l : List ReferralEvent) :
    (replay l).isTerminal = isTerminalStatus (replay l).status :=
  foldl_flag_status l initAcc rfl

/-! ## Terminal absorption (claim C3) -/

/-- C3 (confirmed): once the replayed status is terminal (`COMPLETED` or
`CANCELLED`, equivalently the replay flag is set, which stays in sync with
the status), a `STATUS_UPDATE` carrying a non-terminal status is a no-op
(no field of the replay state changes, no counter moves), and one carrying
a terminal status sets exactly the status and bumps `terminalOverrides` by
one, the state staying terminal through that event and any sequence of
later events. -/
theorem terminal_absorption (acc : ReplayAcc) (e : ReferralEvent) (s : Status)
    (hsync : acc.isTerminal = isTerminalStatus acc.status)
    (hterm : isTerminalStatus acc.status = true)
    (hty : e.type = .STATUS_UPDATE) (hs : e.payload.status = some s) :
    (isTerminalStatus s = false → step acc e = acc) ∧
    (isTerminalStatus s = true →
      step acc e
        = { acc with status := s, terminalOverrides := acc.terminalOverrides + 1 }) ∧
    isTerminalStatus (step acc e).status = true ∧
    ∀ l : List ReferralEvent, isTerminalStatus ((l.foldl step acc).status) = true := by
  have hflag : acc.isTerminal = true := hsync.trans hterm
  have happt : ∀ acc2 : ReplayAcc, step acc2 e = applyStatus acc2 e := by
    intro acc2
    show applyApptCancel (applyApptSet (applyStatus acc2 e) e) e = applyStatus acc2 e
    exact apptSteps_on_status (applyStatus acc2 e) e hty
  have hstatus : applyStatus acc e
      = if isTerminalStatus s then
          { acc with status := s, terminalOverrides := acc.terminalOverrides + 1 }
        else acc := by
    unfold applyStatus
    split
    · rename_i s2 hty2 hs2
      rw [hs] at hs2
      cases hs2
      rw [if_pos hflag]
    · rename_i hno
      exact (hno s hty hs).elim
  refine ⟨?_, ?_, ?_, ?_⟩
  · intro hsnon
    rw [happt, hstatus, hsnon]
    simp
  · intro hsterm
    rw [happt, hstatus, hsterm]
    simp
  · rw [happt, hstatus]
    split
    · rename_i hsterm
      simpa using hsterm
    · exact hterm
  · intro l
    have := foldl_flag_status l acc hsync
    rw [← this]
    exact foldl_keeps_terminal l acc hflag

/-- Witness for C3: in a concrete terminal state reached by replay, a
later non-terminal `SENT` update is a no-op and a later `COMPLETED`
update bumps `terminalOverrides`. -/
theorem terminal_absorption_witness :
    (isTerminalStatus Status.SENT = false →
      step (replay [⟨"r", 1, .STATUS_UPDATE, ⟨some .CANCELLED, none, none⟩⟩])
          ⟨"r", 2, .STATUS_UPDATE, ⟨some .SENT, none, none⟩⟩
        = replay [⟨"r", 1, .STATUS_UPDATE, ⟨some .CANCELLED, none, none⟩⟩]) ∧
    (isTerminalStatus Status.COMPLETED = true →
      step (replay [⟨"r", 1, .STATUS_UPDATE, ⟨some .CANCELLED, none, none⟩⟩])
          ⟨"r", 2, .STATUS_UPDATE, ⟨some .COMPLETED, none, none⟩⟩
        = { replay [⟨"r", 1, .STATUS_UPDATE, ⟨some .CANCELLED, none, none⟩⟩] with
              status := .COMPLETED,
              terminalOverrides :=
                (replay [⟨"r", 1, .STATUS_UPDATE, ⟨some .CANCELLED, none, none⟩⟩]).terminalOverrides
                  + 1 }) :=
  ⟨(terminal_absorption _ ⟨"r", 2, .STATUS_UPDATE, ⟨some .SENT, none, none⟩⟩
      .SENT (by decide) (by decide) rfl rfl).1,
   fun _ =>
    (terminal_absorption _ ⟨"r", 2, .STATUS_UPDATE, ⟨some .COMPLETED, none, none⟩⟩
      .COMPLETED (by decide) (by decide) rfl rfl).2.1 (by decide)⟩

/-! ## Totality on malformed payloads (claim C10) -/

theorem step_malformed (acc : ReplayAcc) (e : ReferralEvent)
    (h : wellFormedE e = false) : step acc e = acc := by
  obtain ⟨erid, eseq, ety, os, oa, ot⟩ := e
  cases ety with
  | STATUS_UPDATE =>
    cases os with
    | some v => simp [wellFormedE] at h
    | none => rfl
  | APPOINTMENT_SET =>
    cases oa with
    | none => rfl
    | some a =>
      cases ot with
      | none => rfl
      | some t0 => simp [wellFormedE] at h
  | APPOINTMENT_CANCELLED =>
    cases oa with
    | none => rfl
    | some a => simp [wellFormedE] at h

/-- C10 (confirmed): `reconcile` is total (a plain function of any event
list); a retained event whose payload lacks the fields its type reads is a
strict no-op for the replay state (status, appointments, and the
`terminalOverrides`/`reschedules`/`cancelledAppts` counters), the whole
replay equals the replay of only the well-formed events, and every raw
event — malformed ones included — is represented at its `seq` in the
output `events` list and is counted by the duplicate and gap metrics
(`duplicates` complements the retained count, `seqGaps` is computed from
the full retained list). -/
theorem replay_ignores_malformed :
    (∀ (acc : ReplayAcc) (e : ReferralEvent),
      wellFormedE e = false → step acc e = acc) ∧
    (∀ (l : List ReferralEvent) (acc : ReplayAcc),
      l.foldl step acc = (l.filter wellFormedE).foldl step acc) ∧
    ∀ (E : List ReferralEvent) (rid : String) (st : ReferralState),
      reconcile E rid = some st →
      (∀ e ∈ groupFor E rid, ∃ x ∈ st.events, x.seq = e.seq) ∧
      st.events.length + st.metrics.duplicates = (groupFor E rid).length ∧
      st.metrics.seqGaps = countGaps st.events := by
  refine ⟨step_malformed, ?_, ?_⟩
  · intro l
    induction l with
    | nil => intro acc; rfl
    | cons e t ih =>
      intro acc
      by_cases he : wellFormedE e
      · rw [List.filter_cons_of_pos he]
        exact ih (step acc e)
      · rw [List.filter_cons_of_neg he]
        simp only [List.foldl_cons]
        rw [step_malformed acc e (by simpa using he)]
        exact ih acc
  · intro E rid st h
    have hst := reconcile_some E rid st h
    subst hst
    refine ⟨?_, ?_, rfl⟩
    · intro e he
      have : ∃ x ∈ (dedupBySeq (groupFor E rid)).1, x.seq = e.seq := by
        rw [show dedupBySeq (groupFor E rid)
            = (groupFor E rid).foldl dedupStep ([], 0) from rfl,
          dedup_foldl_seq_iff]
        exact Or.inr ⟨e, he, rfl⟩
      obtain ⟨x, hx, hxs⟩ := this
      exact ⟨x, (sortEvents_perm _).mem_iff.mpr hx, hxs⟩
    · have hlen := dedup_foldl_len (groupFor E rid) ([], 0)
      have hsort : (sortEvents (dedupBySeq (groupFor E rid)).1).length
          = (dedupBySeq (groupFor E rid)).1.length :=
        (sortEvents_perm _).length_eq
      simp only [List.length_nil] at hlen
      have hdd : dedupBySeq (groupFor E rid)
          = (groupFor E rid).foldl dedupStep ([], 0) := rfl
      rw [← hdd] at hlen
      show (sortEvents (dedupBySeq (groupFor E rid)).1).length
          + (dedupBySeq (groupFor E rid)).2 = (groupFor E rid).length
      rw [hsort]
      omega

/-- Witness for C10: a `STATUS_UPDATE` with no `payload.status` leaves a
concrete replay state untouched, yet is retained in the output events of
its referral and counted by the metrics. -/
theorem replay_ignores_malformed_witness :
    step initAcc evNoStatus = initAcc ∧
    (∃ x ∈ (processReferral "r" (groupFor [evNoStatus] "r")).events,
      x.seq = evNoStatus.seq) ∧
    (processReferral "r" (groupFor [evNoStatus] "r")).events.length
        + (processReferral "r" (groupFor [evNoStatus] "r")).metrics.duplicates
      = (groupFor [evNoStatus] "r").length :=
  ⟨replay_ignores_malformed.1 initAcc evNoStatus (by decide),
   (replay_ignores_malformed.2.2 [evNoStatus] "r" _ rfl).1 evNoStatus (by decide),
   (replay_ignores_malformed.2.2 [evNoStatus] "r" _ rfl).2.1⟩

/-! ## Active-appointment selection (claim C2) -/

theorem findCongr {α : Type} (l : List α) (p q : α → Bool)
    (h : ∀ x ∈ l, p x = q x) : l.find? p = l.find? q := by
  induction l with
  | nil => rfl
  | cons a t ih =>
    have hha : p a = q a := h a (List.mem_cons_self a t)
    simp only [List.find?_cons, hha]
    cases hqa : q a with
    | true => rfl
    | false => exact ih (fun x hx => h x (List.mem_cons_of_mem _ hx))

theorem bestGo_some (t : List (Option Appointment)) :
    ∀ b : Appointment, bestGo (some b) t = some (gmin b (t.filterMap id)) := by
  induction t with
  | nil => intro b; rfl
  | cons v vs ih =>
    intro b
    cases v with
    | none => exact ih b
    | some a =>
      show bestGo (if a.start_time < b.start_time then some a else some b) vs
          = some (gmin (if a.start_time < b.start_time then a else b) (vs.filterMap id))
      by_cases hlt : a.start_time < b.start_time
      · rw [if_pos hlt, if_pos hlt, ih a]
      · rw [if_neg hlt, if_neg hlt, ih b]

theorem bestGo_none (vals : List (Option Appointment)) :
    bestGo none vals
      = match vals.filterMap id with
        | [] => none
        | a :: t => some (gmin a t) := by
  induction vals with
  | nil => rfl
  | cons v vs ih =>
    cases v with
    | none => exact ih
    | some a => exact bestGo_some vs a

theorem gmin_find (l : List Appointment) :
    ∀ b : Appointment,
      (b :: l).find?
          (fun a => (b :: l).all (fun c => decide (a.start_time ≤ c.start_time)))
        = some (gmin b l) := by
  induction l with
  | nil =>
    intro b
    simp [List.find?_cons, List.all_cons, gmin]
  | cons a t ih =>
    intro b
    have hgm : gmin b (a :: t) = gmin (if a.start_time < b.start_time then a else b) t := rfl
    by_cases hlt : a.start_time < b.start_time
    · rw [hgm, if_pos hlt]
      have hb : ((b :: a :: t).all
          (fun c => decide (b.start_time ≤ c.start_time))) = false := by
        simp only [List.all_cons, Bool.and_eq_false_iff]
        refine Or.inr (Or.inl ?_)
        simp only [decide_eq_false_iff_not]
        exact not_le.mpr hlt
      rw [List.find?_cons]
      rw [hb]
      have hcongr : (a :: t).find?
            (fun x => (b :: a :: t).all (fun c => decide (x.start_time ≤ c.start_time)))
          = (a :: t).find?
            (fun x => (a :: t).all (fun c => decide (x.start_time ≤ c.start_time))) := by
        refine findCongr _ _ _ ?_
        intro x hx
        by_cases hxa : x.start_time ≤ a.start_time
        · have hxb : x.start_time ≤ b.start_time := le_trans hxa (le_of_lt hlt)
          simp only [List.all_cons, decide_eq_true_eq]
          rw [decide_eq_true hxb]
          simp
        · simp only [List.all_cons]
          rw [decide_eq_false hxa]
          simp
      rw [hcongr, ih a]
    · have hba : b.start_time ≤ a.start_time := not_lt.mp hlt
      rw [hgm, if_neg hlt]
      by_cases hq : (t.all (fun c => decide (b.start_time ≤ c.start_time))) = true
      · have hfullb : ((b :: a :: t).all
            (fun c => decide (b.start_time ≤ c.start_time))) = true := by
          simp only [List.all_cons, Bool.and_eq_true, decide_eq_true_eq]
          exact ⟨le_refl _, hba, by simpa using hq⟩
        have hsmallb : ((b :: t).all
            (fun c => decide (b.start_time ≤ c.start_time))) = true := by
          simp only [List.all_cons, Bool.and_eq_true, decide_eq_true_eq]
          exact ⟨le_refl _, by simpa using hq⟩
        have hRHS := ih b
        rw [@List.find?_cons_of_pos _
          (fun x => (b :: t).all (fun c => decide (x.start_time ≤ c.start_time)))
          b t hsmallb] at hRHS
        rw [@List.find?_cons_of_pos _
          (fun x => (b :: a :: t).all (fun c => decide (x.start_time ≤ c.start_time)))
          b (a :: t) hfullb]
        exact hRHS
      · have hqf : (t.all (fun c => decide (b.start_time ≤ c.start_time))) = false :=
          Bool.eq_false_iff.mpr hq
        have hfullb : ((b :: a :: t).all
            (fun c => decide (b.start_time ≤ c.start_time))) = false := by
          simp only [List.all_cons, Bool.and_eq_false_iff]
          exact Or.inr (Or.inr hqf)
        have hsmallb : ((b :: t).all
            (fun c => decide (b.start_time ≤ c.start_time))) = false := by
          simp only [List.all_cons, Bool.and_eq_false_iff]
          exact Or.inr hqf
        have hfulla : ((b :: a :: t).all
            (fun c => decide (a.start_time ≤ c.start_time))) = false := by
          by_cases hab : a.start_time ≤ b.start_time
          · have heq : a.start_time = b.start_time := le_antisymm hab hba
            simp only [List.all_cons, Bool.and_eq_false_iff]
            refine Or.inr (Or.inr ?_)
            rw [heq]
            exact hqf
          · simp only [List.all_cons, Bool.and_eq_false_iff]
            exact Or.inl (by simpa using hab)
        have hRHS := ih b
        rw [@List.find?_cons_of_neg _
          (fun x => (b :: t).all (fun c => decide (x.start_time ≤ c.start_time)))
          b t (fun hcontra => Bool.false_ne_true (hsmallb.symm.trans hcontra))] at hRHS
        rw [@List.find?_cons_of_neg _
          (fun x => (b :: a :: t).all (fun c => decide (x.start_time ≤ c.start_time)))
          b (a :: t) (fun hcontra => Bool.false_ne_true (hfullb.symm.trans hcontra)),
          @List.find?_cons_of_neg _
          (fun x => (b :: a :: t).all (fun c => decide (x.start_time ≤ c.start_time)))
          a t (fun hcontra => Bool.false_ne_true (hfulla.symm.trans hcontra))]
        have hcongr : t.find?
              (fun x => (b :: a :: t).all (fun c => decide (x.start_time ≤ c.start_time)))
            = t.find?
              (fun x => (b :: t).all (fun c => decide (x.start_time ≤ c.start_time))) := by
          refine findCongr _ _ _ ?_
          intro x hx
          by_cases hxb : x.start_time ≤ b.start_time
          · have hxa : x.start_time ≤ a.start_time := le_trans hxb hba
            simp only [List.all_cons]
            rw [decide_eq_true hxb, decide_eq_true hxa]
            simp
          · simp only [List.all_cons]
            rw [decide_eq_false hxb]
            simp
        rw [hcongr]
        exact hRHS

/-- C2 (amended, confirmed): in every reconciled state, a terminal status
forces `active_appointment = null`; with a non-terminal status,
`active_appointment` is the *first* non-cancelled appointment in record
insertion order whose `start_time` is minimal among the non-cancelled
appointments (ties between equal `start_time`s keep the earliest-inserted
appointment, not the lexicographically smallest `appt_id`), and it is null
exactly when no non-cancelled appointment exists. -/
theorem active_appointment_spec (E : List ReferralEvent) (rid : String)
    (st : ReferralState) (h : reconcile E rid = some st) :
    (isTerminalStatus st.status = true → st.active_appointment = none) ∧
    (isTerminalStatus st.status = false →
      st.active_appointment
          = (st.appointments.filterMap (·.2)).find?
              (fun a => (st.appointments.filterMap (·.2)).all
                (fun c => decide (a.start_time ≤ c.start_time))) ∧
      (st.active_appointment = none ↔ st.appointments.filterMap (·.2) = [])) := by
  have hst := reconcile_some E rid st h
  subst hst
  have hact : (processReferral rid (groupFor E rid)).active_appointment
      = finalizeActive (replay (sortEvents (dedupBySeq (groupFor E rid)).1)) := rfl
  have happ : (processReferral rid (groupFor E rid)).appointments
      = (replay (sortEvents (dedupBySeq (groupFor E rid)).1)).appointments := rfl
  have hstat : (processReferral rid (groupFor E rid)).status
      = (replay (sortEvents (dedupBySeq (groupFor E rid)).1)).status := rfl
  have hsync := replay_flag_status (sortEvents (dedupBySeq (groupFor E rid)).1)
  constructor
  · intro hterm
    rw [hact]
    unfold finalizeActive
    rw [if_pos (hsync.trans ((hstat ▸ hterm : _)))]
  · intro hterm
    have hflag : (replay (sortEvents (dedupBySeq (groupFor E rid)).1)).isTerminal = false := by
      rw [hsync]
      exact hstat ▸ hterm
    rw [hact, happ]
    unfold finalizeActive
    rw [if_neg (by rw [hflag]; exact Bool.false_ne_true)]
    have hmapfm : ((replay (sortEvents (dedupBySeq (groupFor E rid)).1)).appointments.map
          (fun p => p.2)).filterMap id
        = (replay (sortEvents (dedupBySeq (groupFor E rid)).1)).appointments.filterMap
          (fun p => p.2) := by
      rw [List.filterMap_map]
      rfl
    have hbg : bestApptFold ((replay (sortEvents (dedupBySeq (groupFor E rid)).1)).appointments.map
          (fun p => p.2))
        = bestGo none ((replay (sortEvents (dedupBySeq (groupFor E rid)).1)).appointments.map
          (fun p => p.2)) := rfl
    rw [hbg, bestGo_none, hmapfm]
    cases hnc : (replay (sortEvents (dedupBySeq (groupFor E rid)).1)).appointments.filterMap
        (fun p => p.2) with
    | nil => exact ⟨rfl, by simp⟩
    | cons a t =>
      constructor
      · exact (gmin_find t a).symm
      · simp

/-- Witness for C2 (amended) at a two-appointment tie: the selected
appointment is the characterized first minimum. -/
theorem active_appointment_spec_witness :
    isTerminalStatus (processReferral "r" (groupFor [evSetB, evSetA] "r")).status = false ∧
    (processReferral "r" (groupFor [evSetB, evSetA] "r")).active_appointment
        = ((processReferral "r" (groupFor [evSetB, evSetA] "r")).appointments.filterMap
            (·.2)).find?
            (fun a => ((processReferral "r" (groupFor [evSetB, evSetA] "r")).appointments.filterMap
              (·.2)).all (fun c => decide (a.start_time ≤ c.start_time))) :=
  ⟨by decide,
   ((active_appointment_spec [evSetB, evSetA] "r" _ rfl).2 (by decide)).1⟩

/-- C2 (counterexample): with `B` set before `A` at the same `start_time`,
the referral is non-terminal and both appointments are present and
non-cancelled, `"A"` precedes `"B"` lexicographically, yet the code's
`active_appointment` is `B` — not the lexicographically-least `A` the
claim requires. -/
theorem active_appointment_counterexample :
    (reconcile [evSetB, evSetA] "r").map (fun st => isTerminalStatus st.status)
        = some false ∧
    (reconcile [evSetB, evSetA] "r").map (fun st => lookupAppt st.appointments "A")
        = some (some (some ⟨"A", 100⟩)) ∧
    (reconcile [evSetB, evSetA] "r").map (fun st => lookupAppt st.appointments "B")
        = some (some (some ⟨"B", 100⟩)) ∧
    strLexLt "A" "B" = true ∧
    (reconcile [evSetB, evSetA] "r").map (fun st => st.active_appointment)
        = some (some ⟨"B", 100⟩) ∧
    (reconcile [evSetB, evSetA] "r").map (fun st => st.active_appointment)
        ≠ some (some ⟨"A", 100⟩) := by
  refine ⟨by decide, by decide, by decide, by decide, by decide, by decide⟩

/-! ## Permutation invariance (claim C1) -/

theorem isEmpty_eq_of_perm {α : Type} {l l' : List α} (h : l.Perm l') :
    l.isEmpty = l'.isEmpty := by
  cases l with
  | nil =>
    rw [← h.nil_eq]
  | cons a t =>
    cases l' with
    | nil => exact absurd h.symm.nil_eq (by simp)
    | cons b s => rfl

/-- C1 (amended, confirmed): `reconcile` is invariant under permutation of
the input event list — the full `ReconciledMap`, all five metrics counters
included — provided duplicate events at the same `(referral_id, seq)` are
fully identical events (the claim's hypothesis, equal payloads only, is
not enough: the retained event's `type` may differ; see the
counterexample). -/
theorem reconcile_perm_invariant (E E' : List ReferralEvent)
    (hperm : E.Perm E')
    (huniq : ∀ a ∈ E, ∀ b ∈ E,
      a.referral_id = b.referral_id → a.seq = b.seq → a = b) :
    reconcile E = reconcile E' := by
  funext rid
  have hg : (groupFor E rid).Perm (groupFor E' rid) := hperm.filter _
  have hguniq : ∀ a ∈ groupFor E rid, ∀ b ∈ groupFor E rid,
      a.seq = b.seq → a = b := by
    intro a ha b hb hab
    have ha' : a ∈ E := List.mem_of_mem_filter ha
    have hb' : b ∈ E := List.mem_of_mem_filter hb
    have hra : a.referral_id = rid := by simpa using List.of_mem_filter ha
    have hrb : b.referral_id = rid := by simpa using List.of_mem_filter hb
    exact huniq a ha' b hb' (hra.trans hrb.symm) hab
  show (if (groupFor E rid).isEmpty = true then none
        else some (processReferral rid (groupFor E rid)))
      = (if (groupFor E' rid).isEmpty = true then none
        else some (processReferral rid (groupFor E' rid)))
  rw [isEmpty_eq_of_perm hg]
  by_cases hemp : (groupFor E' rid).isEmpty = true
  · rw [if_pos hemp, if_pos hemp]
  · rw [if_neg hemp, if_neg hemp]
    obtain ⟨hs, hd⟩ := dedup_sort_perm_invariant _ _ hg hguniq
    have hproc : processReferral rid (groupFor E rid)
        = processReferral rid (groupFor E' rid) := by
      show buildState rid (sortEvents (dedupBySeq (groupFor E rid)).1)
            (dedupBySeq (groupFor E rid)).2
          = buildState rid (sortEvents (dedupBySeq (groupFor E' rid)).1)
            (dedupBySeq (groupFor E' rid)).2
      rw [hs, hd]
    rw [hproc]

/-- Witness for C1 (amended) at a concrete permutation with an exact
duplicate event. -/
theorem reconcile_perm_invariant_witness :
    ([evSetB, evSetA, evSetB] : List ReferralEvent).Perm [evSetA, evSetB, evSetB] ∧
    reconcile [evSetB, evSetA, evSetB] = reconcile [evSetA, evSetB, evSetB] :=
  ⟨by decide, reconcile_perm_invariant _ _ (by decide) (by decide)⟩

/-- C1 (counterexample): two events at the same `("r", 1)` with *equal
payloads* but different types (the claim's hypothesis holds, since it only
excludes differing payloads), whose two orderings reconcile to different
maps: first-wins deduplication retains a different event, so the status
and events list differ. -/
theorem reconcile_perm_counterexample :
    ([evStatus, evAppt] : List ReferralEvent).Perm [evAppt, evStatus] ∧
    ([evStatus, evAppt].all (fun a => [evStatus, evAppt].all (fun b =>
      (!(a.referral_id == b.referral_id)) ||
      ((!(a.seq == b.seq)) || (a.payload == b.payload))))) = true ∧
    reconcile [evStatus, evAppt] "r" ≠ reconcile [evAppt, evStatus] "r" ∧
    reconcile [evStatus, evAppt] ≠ reconcile [evAppt, evStatus] := by
  refine ⟨by decide, by decide, by decide, ?_⟩
  intro hcontra
  exact (by decide :
      reconcile [evStatus, evAppt] "r" ≠ reconcile [evAppt, evStatus] "r")
    (congrFun hcontra "r")

/-! ## Duplicate idempotence (claim C5) -/

/-- C5 (amended, confirmed): concatenating an input with itself leaves,
for every referral, the retained events, status, active appointment,
appointments record, and the `seqGaps`/`terminalOverrides`/`reschedules`/
`cancelledAppts` counters unchanged; `duplicates` grows by the referral's
raw event count (it does *not* double: each event of the second copy hits
an already-present `seq`; see the counterexample). -/
theorem reconcile_append_self (E : List ReferralEvent) (rid : String)
    (st st' : ReferralState)
    (h : reconcile E rid = some st) (h' : reconcile (E ++ E) rid = some st') :
    st'.events = st.events ∧ st'.status = st.status ∧
    st'.active_appointment = st.active_appointment ∧
    st'.appointments = st.appointments ∧
    st'.metrics.seqGaps = st.metrics.seqGaps ∧
    st'.metrics.terminalOverrides = st.metrics.terminalOverrides ∧
    st'.metrics.reschedules = st.metrics.reschedules ∧
    st'.metrics.cancelledAppts = st.metrics.cancelledAppts ∧
    st'.metrics.duplicates
      = st.metrics.duplicates + (groupFor E rid).length := by
  have hst := reconcile_some E rid st h
  have hst' := reconcile_some (E ++ E) rid st' h'
  subst hst hst'
  have hgg : groupFor (E ++ E) rid = groupFor E rid ++ groupFor E rid :=
    List.filter_append _ _
  have habs : dedupBySeq (groupFor E rid ++ groupFor E rid)
      = ((dedupBySeq (groupFor E rid)).1,
         (dedupBySeq (groupFor E rid)).2 + (groupFor E rid).length) := by
    show (groupFor E rid ++ groupFor E rid).foldl dedupStep ([], 0) = _
    rw [List.foldl_append]
    apply dedup_foldl_absorb
    intro e he
    have : ∃ x ∈ (dedupBySeq (groupFor E rid)).1, x.seq = e.seq := by
      rw [show dedupBySeq (groupFor E rid)
          = (groupFor E rid).foldl dedupStep ([], 0) from rfl,
        dedup_foldl_seq_iff]
      exact Or.inr ⟨e, he, rfl⟩
    exact this
  have hpr : processReferral rid (groupFor (E ++ E) rid)
      = buildState rid (sortEvents (dedupBySeq (groupFor E rid)).1)
          ((dedupBySeq (groupFor E rid)).2 + (groupFor E rid).length) := by
    show buildState rid (sortEvents (dedupBySeq (groupFor (E ++ E) rid)).1)
          (dedupBySeq (groupFor (E ++ E) rid)).2 = _
    rw [hgg, habs]
  rw [hpr]
  exact ⟨rfl, rfl, rfl, rfl, rfl, rfl, rfl, rfl, rfl⟩

/-- Witness for C5 (amended) at a one-event input doubled. -/
theorem reconcile_append_self_witness :
    (processReferral "r" (groupFor ([evSetB] ++ [evSetB]) "r")).events
        = (processReferral "r" (groupFor [evSetB] "r")).events ∧
    (processReferral "r" (groupFor ([evSetB] ++ [evSetB]) "r")).metrics.duplicates
        = (processReferral "r" (groupFor [evSetB] "r")).metrics.duplicates
            + (groupFor [evSetB] "r").length :=
  ⟨(reconcile_append_self [evSetB] "r"
      (processReferral "r" (groupFor [evSetB] "r"))
      (processReferral "r" (groupFor ([evSetB] ++ [evSetB]) "r")) rfl rfl).1,
   (reconcile_append_self [evSetB] "r"
      (processReferral "r" (groupFor [evSetB] "r"))
      (processReferral "r" (groupFor ([evSetB] ++ [evSetB]) "r"))
      rfl rfl).2.2.2.2.2.2.2.2⟩

/-- C5 (counterexample): for the single-event input `E = [evStatus]`,
`reconcile(E)` has `duplicates = 0` but `reconcile(E ⧺ E)` has
`duplicates = 1 ≠ 2·0`, refuting the claim's "`duplicates` doubles". -/
theorem duplicate_idempotence_counterexample :
    (reconcile [evStatus] "r").map (fun st => st.metrics.duplicates) = some 0 ∧
    (reconcile ([evStatus] ++ [evStatus]) "r").map (fun st => st.metrics.duplicates)
        = some 1 ∧
    (1 : Nat) ≠ 2 * 0 := by
  refine ⟨by decide, by decide, by decide⟩

/-! ## Data-quality ranking (claim C7) -/

instance : IsTotal ReferralIssue (fun a b => b.score ≤ a.score) :=
  ⟨fun a b => (Nat.le_total b.score a.score).symm.symm⟩

instance : IsTrans ReferralIssue (fun a b => b.score ≤ a.score) :=
  ⟨fun _ _ _ hab hbc => le_trans hbc hab⟩

theorem orderedInsert_filter_score (x : ReferralIssue) (s : Nat) :
    ∀ l : List ReferralIssue,
      (List.orderedInsert (fun a b => b.score ≤ a.score) x l).filter
          (fun i => i.score == s)
        = if x.score = s then x :: l.filter (fun i => i.score == s)
          else l.filter (fun i => i.score == s) := by
  intro l
  induction l with
  | nil =>
    simp only [List.orderedInsert, List.filter]
    by_cases hx : x.score = s
    · rw [if_pos hx]
      rw [show (x.score == s) = true from beq_iff_eq.mpr hx]
    · rw [if_neg hx]
      rw [show (x.score == s) = false from beq_eq_false_iff_ne.mpr hx]
  | cons y t ih =>
    show (if y.score ≤ x.score then x :: y :: t
          else y :: List.orderedInsert _ x t).filter (fun i => i.score == s) = _
    by_cases hyx : y.score ≤ x.score
    · rw [if_pos hyx]
      by_cases hx : x.score = s
      · rw [if_pos hx]
        rw [List.filter_cons_of_pos (by simpa using hx)]
      · rw [if_neg hx]
        rw [List.filter_cons_of_neg (by simpa using hx)]
    · rw [if_neg hyx]
      have hxy : x.score < y.score := Nat.lt_of_not_le hyx
      by_cases hy : y.score = s
      · have hxs : x.score ≠ s := by omega
        rw [if_neg hxs]
        rw [List.filter_cons_of_pos (by simpa using hy),
          List.filter_cons_of_pos (by simpa using hy), ih, if_neg hxs]
      · rw [List.filter_cons_of_neg (by simpa using hy),
          List.filter_cons_of_neg (by simpa using hy), ih]

theorem sortIssues_filter_score (l : List ReferralIssue) (s : Nat) :
    (sortIssues l).filter (fun i => i.score == s)
      = l.filter (fun i => i.score == s) := by
  induction l with
  | nil => rfl
  | cons x t ih =>
    show (List.orderedInsert (fun a b => b.score ≤ a.score) x (sortIssues t)).filter
        (fun i => i.score == s) = _
    rw [orderedInsert_filter_score, ih]
    by_cases hx : x.score = s
    · rw [if_pos hx, List.filter_cons_of_pos (by simpa using hx)]
    · rw [if_neg hx, List.filter_cons_of_neg (by simpa using hx)]

/-- C7 (amended, confirmed): `referralsWithIssues` holds at most 10
entries; they are exactly issues with `score = duplicates + seqGaps +
2·terminalOverrides > 0` drawn from the input (all of them whenever at
most 10 qualify), ordered by score descending; and within each score the
surviving entries keep the *input* order (the sort is stable and has no
`referral_id` tiebreak — see the counterexample): for every score `s`,
the selected entries of score `s` are an initial segment of the input's
score-`s` entries. -/
theorem dataQuality_ranking_spec (referrals : List ReferralState) :
    (computeDataQualitySummary referrals).referralsWithIssues.length ≤ 10 ∧
    (computeDataQualitySummary referrals).referralsWithIssues.Sorted
      (fun a b => b.score ≤ a.score) ∧
    (∀ i ∈ (computeDataQualitySummary referrals).referralsWithIssues,
      0 < i.score ∧
        i ∈ (referrals.map mkIssue).filter (fun r => decide (0 < r.score))) ∧
    (((referrals.map mkIssue).filter (fun r => decide (0 < r.score))).length ≤ 10 →
      (computeDataQualitySummary referrals).referralsWithIssues.Perm
        ((referrals.map mkIssue).filter (fun r => decide (0 < r.score)))) ∧
    ∀ s : Nat, ∃ rest,
      ((referrals.map mkIssue).filter (fun r => decide (0 < r.score))).filter
          (fun i => i.score == s)
        = (computeDataQualitySummary referrals).referralsWithIssues.filter
            (fun i => i.score == s) ++ rest := by
  have hres : (computeDataQualitySummary referrals).referralsWithIssues
      = (sortIssues ((referrals.map mkIssue).filter
          (fun r => decide (0 < r.score)))).take 10 := rfl
  have hperm : (sortIssues ((referrals.map mkIssue).filter
        (fun r => decide (0 < r.score)))).Perm
      ((referrals.map mkIssue).filter (fun r => decide (0 < r.score))) :=
    List.perm_insertionSort _ _
  refine ⟨?_, ?_, ?_, ?_, ?_⟩
  · rw [hres]
    exact List.length_take_le 10 _
  · rw [hres]
    exact List.Pairwise.sublist (List.take_sublist 10 _)
      (List.sorted_insertionSort _ _)
  · intro i hi
    rw [hres] at hi
    have hmem : i ∈ (referrals.map mkIssue).filter (fun r => decide (0 < r.score)) :=
      hperm.subset (List.take_subset 10 _ hi)
    refine ⟨?_, hmem⟩
    have := List.of_mem_filter hmem
    simpa using this
  · intro hlen
    rw [hres]
    rw [List.take_of_length_le (by rw [hperm.length_eq]; exact hlen)]
    exact hperm
  · intro s
    refine ⟨(((sortIssues ((referrals.map mkIssue).filter
        (fun r => decide (0 < r.score)))).drop 10).filter (fun i => i.score == s)), ?_⟩
    rw [hres, ← List.filter_append,
      List.take_append_drop 10 (sortIssues ((referrals.map mkIssue).filter
        (fun r => decide (0 < r.score)))),
      sortIssues_filter_score]

/-- Witness for C7 at a two-referral input: the selection keeps both
issues and is a permutation of the positive-score issue list. -/
theorem dataQuality_ranking_spec_witness :
    (computeDataQualitySummary [stIssueB, stIssueA]).referralsWithIssues.length ≤ 10 ∧
    (computeDataQualitySummary [stIssueB, stIssueA]).referralsWithIssues.Perm
      (([stIssueB, stIssueA].map mkIssue).filter (fun r => decide (0 < r.score))) :=
  ⟨(dataQuality_ranking_spec [stIssueB, stIssueA]).1,
   (dataQuality_ranking_spec [stIssueB, stIssueA]).2.2.2.1 (by decide)⟩

/-- C7 (counterexample): two referrals with equal positive score arriving
as `["B", "A"]` are reported in input order `["B", "A"]`, not in the
ascending-`referral_id` order `["A", "B"]` the claim requires. -/
theorem dataQuality_ranking_counterexample :
    (computeDataQualitySummary [stIssueB, stIssueA]).referralsWithIssues.map
        (fun i => i.id) = ["B", "A"] ∧
    (computeDataQualitySummary [stIssueB, stIssueA]).referralsWithIssues.map
        (fun i => i.score) = [1, 1] ∧
    strLexLt "A" "B" = true ∧
    (computeDataQualitySummary [stIssueB, stIssueA]).referralsWithIssues.map
        (fun i => i.id) ≠ ["A", "B"] := by
  refine ⟨by decide, by decide, by decide, by decide⟩

end HRMS
